import Mathlib

/-!
Verification development for the polykit core: the generic linear-expression
engine, its coalgebra operations (binary coproduct, comultiplication, co-term
filtering), the packed-key codecs for Gamma and Theta terms, and the Delta
letter utilities.  Components whose C++ source is available are translated
directly; components whose headers are absent (the generic `Linear` engine,
`coalgebra.h`, `epsilon.h`, `bitset_util.h`, `delta.h`, the ratio and Lira
parameter codecs) are modelled from the specification, as marked on each
definition.
-/

namespace PK

/-- Modelled from the spec: the sparse formal linear combination of the Linear
Expression Engine (`Linear` in the absent `lib/linear.h`).  An expression is a
raw list of term/coefficient pairs; §4.3 makes equality key-wise coefficient
equality after normalization, so the semantic content is the total coefficient
of each term. -/
abbrev LinExpr (K : Type) : Type := List (K × Int)

/-- Total coefficient of a term in an expression (summing repeated entries). -/
def coeff {K : Type} [DecidableEq K] : LinExpr K → K → Int
  | [], _ => 0
  | p :: rest, s => (if p.1 = s then p.2 else 0) + coeff rest s

/-- Modelled from the spec: expression addition (key-wise, §4.3). -/
def addE {K : Type} (e1 e2 : LinExpr K) : LinExpr K := e1 ++ e2

/-- Modelled from the spec: scalar multiplication by an integer (§4.3). -/
def smulE {K : Type} (k : Int) (e : LinExpr K) : LinExpr K :=
  e.map (fun p => (p.1, k * p.2))

/-- Modelled from the spec: the single-term expression (`Linear::single`). -/
def singleE {K : Type} (t : K) (c : Int) : LinExpr K := [(t, c)]

/-- Spec §4.3: two expressions are equal iff their key-to-coefficient mappings
agree after normalization, i.e. every term has the same total coefficient. -/
def exprEq {K : Type} [DecidableEq K] (e1 e2 : LinExpr K) : Prop :=
  ∀ t, coeff e1 t = coeff e2 t

/-- Insert one term into a coefficient-merged list ordered by `lt`. -/
def insertTerm {K : Type} [DecidableEq K] (lt : K → K → Bool) (t : K) (c : Int) :
    LinExpr K → LinExpr K
  | [] => [(t, c)]
  | p :: rest =>
    if t = p.1 then (p.1, p.2 + c) :: rest
    else if lt t p.1 then (t, c) :: p :: rest
    else p :: insertTerm lt t c rest

/-- Normal form of an expression: merge equal keys and drop zero coefficients. -/
def normE {K : Type} [DecidableEq K] (lt : K → K → Bool) (e : LinExpr K) : LinExpr K :=
  (e.foldl (fun acc p => insertTerm lt p.1 p.2 acc) []).filter (fun p => !decide (p.2 = 0))

theorem coeff_append {K : Type} [DecidableEq K] (e1 e2 : LinExpr K) (s : K) :
    coeff (e1 ++ e2) s = coeff e1 s + coeff e2 s := by
  induction e1 with
  | nil => simp [coeff]
  | cons p rest ih =>
    simp only [List.cons_append, coeff]
    rw [show rest.append e2 = rest ++ e2 from rfl, ih]
    ring

theorem coeff_addE {K : Type} [DecidableEq K] (e1 e2 : LinExpr K) (s : K) :
    coeff (addE e1 e2) s = coeff e1 s + coeff e2 s := coeff_append e1 e2 s

theorem coeff_smulE {K : Type} [DecidableEq K] (k : Int) (e : LinExpr K) (s : K) :
    coeff (smulE k e) s = k * coeff e s := by
  induction e with
  | nil => simp [smulE, coeff]
  | cons p rest ih =>
    simp only [smulE, List.map_cons, coeff] at *
    rw [ih]
    by_cases h : p.1 = s
    · simp only [if_pos h]
      ring
    · simp only [if_neg h]
      ring

theorem coeff_insertTerm {K : Type} [DecidableEq K] (lt : K → K → Bool) (t : K) (c : Int)
    (e : LinExpr K) (s : K) :
    coeff (insertTerm lt t c e) s = (if t = s then c else 0) + coeff e s := by
  induction e with
  | nil => simp [insertTerm, coeff]
  | cons p rest ih =>
    obtain ⟨pk, pc⟩ := p
    by_cases h1 : t = pk
    · subst h1
      simp only [insertTerm, if_pos rfl, coeff]
      by_cases h2 : t = s
      · simp only [if_pos h2, coeff]
        ring
      · simp [h2]
    · simp only [insertTerm, if_neg h1]
      by_cases h3 : lt t pk
      · simp only [if_pos h3, coeff]
      · simp only [if_neg h3, coeff, ih]
        ring

theorem coeff_foldl_insertTerm {K : Type} [DecidableEq K] (lt : K → K → Bool)
    (e : LinExpr K) (acc : LinExpr K) (s : K) :
    coeff (e.foldl (fun acc p => insertTerm lt p.1 p.2 acc) acc) s =
      coeff acc s + coeff e s := by
  induction e generalizing acc with
  | nil => simp [coeff]
  | cons p rest ih =>
    simp only [List.foldl_cons, coeff, ih, coeff_insertTerm]
    ring

theorem coeff_filter_nonzero {K : Type} [DecidableEq K] (e : LinExpr K) (s : K) :
    coeff (e.filter (fun p => !decide (p.2 = 0))) s = coeff e s := by
  induction e with
  | nil => simp [coeff]
  | cons p rest ih =>
    by_cases h : p.2 = 0
    · simp [List.filter_cons, h, coeff, ih]
    · simp [List.filter_cons, h, coeff, ih]

theorem coeff_normE {K : Type} [DecidableEq K] (lt : K → K → Bool) (e : LinExpr K) (s : K) :
    coeff (normE lt e) s = coeff e s := by
  unfold normE
  rw [coeff_filter_nonzero, coeff_foldl_insertTerm]
  simp [coeff]

theorem exprEq_of_normE_eq {K : Type} [DecidableEq K] (lt : K → K → Bool)
    {e1 e2 : LinExpr K} (h : normE lt e1 = normE lt e2) : exprEq e1 e2 := by
  intro s
  rw [← coeff_normE lt e1 s, ← coeff_normE lt e2 s, h]

/-- Modelled from the spec: the binary coproduct `coproduct(A, B)` of §4.4
(`coalgebra.h` is absent from src/): the co-expression of all pairs `(a, b)`
with coefficient `coeff(a) * coeff(b)`. -/
def coproduct {A B : Type} (e1 : LinExpr A) (e2 : LinExpr B) : LinExpr (A × B) :=
  e1.foldr (fun p acc => (e2.map (fun q => ((p.1, q.1), p.2 * q.2))) ++ acc) []

theorem coeff_map_pair {A B : Type} [DecidableEq A] [DecidableEq B]
    (x : A) (c : Int) (e2 : LinExpr B) (a : A) (b : B) :
    coeff (e2.map (fun q => ((x, q.1), c * q.2))) (a, b) =
      (if x = a then c else 0) * coeff e2 b := by
  induction e2 with
  | nil => simp [coeff]
  | cons q rest ih =>
    simp only [List.map_cons, coeff, ih]
    by_cases hx : x = a
    · by_cases hq : q.1 = b
      · simp only [hx, hq, Prod.mk.injEq, and_self, if_pos rfl, if_true]
        ring
      · simp only [Prod.mk.injEq, hx, hq, and_false, if_false, if_true]
        ring
    · simp only [Prod.mk.injEq, hx, false_and, if_false]
      ring

theorem coeff_coproduct {A B : Type} [DecidableEq A] [DecidableEq B]
    (e1 : LinExpr A) (e2 : LinExpr B) (a : A) (b : B) :
    coeff (coproduct e1 e2) (a, b) = coeff e1 a * coeff e2 b := by
  induction e1 with
  | nil => simp [coproduct, coeff]
  | cons p rest ih =>
    simp only [coproduct, List.foldr_cons] at *
    rw [coeff_append, ih, coeff_map_pair]
    simp only [coeff]
    ring

/-- Lexicographic comparison of letter words over natural-number letters. -/
def ltListNat : List ℕ → List ℕ → Bool
  | [], [] => false
  | [], _ :: _ => true
  | _ :: _, [] => false
  | a :: as, b :: bs => if a < b then true else if b < a then false else ltListNat as bs

/-- Modelled from the spec: a term of the simple-vector test algebra of
`test_util/helpers.h` (absent from src/): an ordered word of integer
letters. -/
abbrev SVTerm : Type := List ℕ

abbrev SVExpr : Type := LinExpr SVTerm

/-- A two-part co-term over simple-vector parts. -/
abbrev SVCoTerm : Type := SVTerm × SVTerm

abbrev SVCoExpr : Type := LinExpr SVCoTerm

/-- Modelled from the spec: the `SV` term factory of the absent test helpers. -/
def SV (w : SVTerm) : SVExpr := singleE w 1

/-- Modelled from the spec: the `CoSV` co-term factory of the absent test
helpers. -/
def CoSV (t : SVCoTerm) : SVCoExpr := singleE t 1

/-- Modelled from the spec (§4.2): reduction of one co-term part to the Lyndon
basis of the shuffle algebra (`to_lyndon_basis` of the absent `lib/lyndon.h`),
for the part weights (at most 2) exercised by the repository tests: the empty
word and single letters are Lyndon; a two-letter word `[a, b]` is Lyndon for
`a < b`, rewrites to `-[b, a]` modulo shuffle products for `a > b`, and
vanishes for `a = b` (it is half the shuffle square of `[a]`).  Part weights
of three or more are not modelled (`none`). -/
def lyndonReducePart : SVTerm → Option (Int × SVTerm)
  | [] => some (1, [])
  | [a] => some (1, [a])
  | [a, b] =>
    some (if a < b then (1, [a, b]) else if b < a then (-1, [b, a]) else (0, [a, b]))
  | _ => none

/-- Spec §4.2: the length-first order on co-term parts (shorter first, then
content). -/
def coPartLt (l r : SVTerm) : Bool :=
  if l.length = r.length then ltListNat l r else decide (l.length < r.length)

/-- Modelled from the spec (§4.4): `comultiply(expr, {m, n})` of the absent
`lib/coalgebra.h` for a two-part composition in the Lie-coalgebra flavor used
by the simple-vector tests: each term is cut into the two contiguous blocks
declared by the composition, each block is reduced to the Lyndon basis of the
shuffle quotient, and the pair of parts is put in canonical order, a swap
contributing the antisymmetry sign (equal parts cancel).  `none` reports a
contract violation (a term whose weight differs from the sum of the
composition parts, fatal per §4.4) or a part weight the Lyndon model does not
cover. -/
def comultiply2 (e : SVExpr) (m n : ℕ) : Option SVCoExpr :=
  e.foldr (fun p acc =>
    acc.bind (fun rest =>
      if p.1.length = m + n then
        (lyndonReducePart (p.1.take m)).bind (fun r1 =>
          (lyndonReducePart (p.1.drop m)).map (fun r2 =>
            (if r1.2 = r2.2 then []
             else if coPartLt r1.2 r2.2 then [((r1.2, r2.2), p.2 * r1.1 * r2.1)]
             else [((r2.2, r1.2), -(p.2 * r1.1 * r2.1))]) ++ rest))
      else none)) (some [])

/-- Order on two-part co-terms, for normal forms. -/
def ltSVCoTerm (a b : SVCoTerm) : Bool :=
  if a.1 = b.1 then ltListNat a.2 b.2 else ltListNat a.1 b.1

/-- C1: comultiplying `T{1,3,2,4} + T{4,3,2,1}` under the composition `{2,2}`
returns exactly `CoT{{1,3},{2,4}} - CoT{{1,2},{3,4}}`. -/
theorem c1_comultiply_form_2_2 :
    ∃ r, comultiply2 (addE (SV [1, 3, 2, 4]) (SV [4, 3, 2, 1])) 2 2 = some r ∧
      exprEq r (addE (CoSV ([1, 3], [2, 4])) (smulE (-1) (CoSV ([1, 2], [3, 4])))) := by
  refine ⟨_, rfl, exprEq_of_normE_eq ltSVCoTerm (by decide)⟩

/-- C2: comultiplying the term with letters `{1,1,2,3}` under `{2,2}` yields
the zero co-expression, with no error raised (the result is `some`). -/
theorem c2_comultiply_zero :
    ∃ r, comultiply2 (SV [1, 1, 2, 3]) 2 2 = some r ∧ exprEq r ([] : SVCoExpr) := by
  refine ⟨_, rfl, exprEq_of_normE_eq ltSVCoTerm (by decide)⟩

/-- The bound `kMaxGammaVariables` of `gamma.h` (line 15). -/
def kMaxGammaVariables : ℕ := 16

/-- One step of packing an index vector into a bitset: the 1-based index `v`
maps to bit `v - 1`; packing fails on an index outside the bound or on a bit
that is already set. -/
def bitsetStep (acc : Option ℕ) (v : ℕ) : Option ℕ :=
  acc.bind (fun bits =>
    if 1 ≤ v ∧ v ≤ kMaxGammaVariables then
      if bits.testBit (v - 1) then none
      else some (bits ||| 2 ^ (v - 1))
    else none)

/-- Modelled from the spec (§4.1): `vector_to_bitset_or` of the absent
`bitset_util.h`, with offset 1 as used by `Gamma`: packs a vector of column
indices into a fixed-width bitset and rejects (`none`) any index set that does
not fit the bound 1..16 or that repeats an index (a minor with a repeated
column is degenerate, spec §3).  Indices are naturals here; a non-positive
C++ index is likewise out of the 1-based range. -/
def vector_to_bitset_or (vars : List ℕ) : Option ℕ :=
  vars.foldl bitsetStep (some 0)

/-- `Gamma` of `gamma.h`: a minor whose index set is packed into a bitset,
kept here as the bitmask value (bit `i` set means column `i + 1` is in the
minor). -/
structure Gamma where
  indices : ℕ
deriving DecidableEq

/-- `Gamma::is_nil` (gamma.h line 32): the bitset is empty. -/
def Gamma.is_nil (g : Gamma) : Bool := decide (g.indices = 0)

/-- `Gamma::Gamma(const std::vector<int>&)` (gamma.h lines 49-56): when the
codec rejects the index vector the bitset stays empty, so the letter is
nil. -/
def Gamma.ofVars (vars : List ℕ) : Gamma :=
  match vector_to_bitset_or vars with
  | some bits => ⟨bits⟩
  | none => ⟨0⟩

/-- `Gamma::operator<` (gamma.h line 38) compares bitset values. -/
def Gamma.ltG (g1 g2 : Gamma) : Bool := decide (g1.indices < g2.indices)

/-- Ascending lexicographic comparison of co-term part content (`asc_ref` over
`Gamma::operator<`). -/
def gammaListLtLex : List Gamma → List Gamma → Bool
  | [], [] => false
  | [], _ :: _ => true
  | _ :: _, [] => false
  | a :: as, b :: bs =>
    if a.ltG b then true else if b.ltG a then false else gammaListLtLex as bs

/-- Modelled from the spec (§4.2): `LYNDON_COMPARE_LENGTH_FIRST` of the absent
`lib/linear.h`, the length-first part order declared by `GammaICoExprParam`
(gamma.h line 102): shorter parts precede longer, then content ascending. -/
def icoLyndonCompare (l r : List Gamma) : Bool :=
  if l.length = r.length then gammaListLtLex l r else decide (l.length < r.length)

/-- `GammaACoExprParam::lyndon_compare` (gamma.h lines 126-135): `projected`
on the tuple `(desc_val(v.size()), asc_ref(v))`, i.e. parts with the larger
size come first, then content ascending. -/
def acoLyndonCompare (l r : List Gamma) : Bool :=
  if l.length = r.length then gammaListLtLex l r else decide (r.length < l.length)

/-- Modelled from the spec (§4.1): the fixed-capacity compact vector
(`PVector` of the absent `pvector.h`) holding a packed term, as a list
wrapper. -/
structure PVec (α : Type) where
  toList : List α
deriving DecidableEq

/-- `GammaExprParam::object_to_key` (gamma.h lines 65-67): `to_pvector`. -/
def gammaObjectToKey (obj : List Gamma) : PVec Gamma := ⟨obj⟩

/-- `GammaExprParam::key_to_object` (gamma.h lines 68-70): `to_vector`. -/
def gammaKeyToObject (key : PVec Gamma) : List Gamma := key.toList

/-- `G` (gamma.h lines 146-149): the single-term expression on the letter
`Gamma(vars)`, or the zero expression when that letter is nil. -/
def G (vars : List ℕ) : LinExpr (List Gamma) :=
  let g := Gamma.ofVars vars
  if g.is_nil then [] else singleE [g] 1

theorem bitsetStep_none (v : ℕ) : bitsetStep none v = none := rfl

theorem foldl_bitsetStep_none (vars : List ℕ) :
    vars.foldl bitsetStep none = none := by
  induction vars with
  | nil => rfl
  | cons w rest ih => simp [List.foldl_cons, bitsetStep_none, ih]

theorem bitsetStep_some {bits v bits' : ℕ} (h : bitsetStep (some bits) v = some bits') :
    (1 ≤ v ∧ v ≤ kMaxGammaVariables) ∧ bits.testBit (v - 1) = false ∧
      bits' = bits ||| 2 ^ (v - 1) := by
  by_cases h1 : 1 ≤ v ∧ v ≤ kMaxGammaVariables
  · by_cases h2 : bits.testBit (v - 1)
    · simp [bitsetStep, h1, h2] at h
    · refine ⟨h1, by simp [h2], ?_⟩
      simp [bitsetStep, h1, h2] at h
      exact h.symm
  · simp [bitsetStep, h1] at h

theorem foldl_bitsetStep_testBit {vars : List ℕ} {bits r : ℕ}
    (h : vars.foldl bitsetStep (some bits) = some r) :
    ∀ v ∈ vars, bits.testBit (v - 1) = false := by
  induction vars generalizing bits with
  | nil => intro v hv; cases hv
  | cons w rest ih =>
    intro v hv
    rw [List.foldl_cons] at h
    cases hstep : bitsetStep (some bits) w with
    | none => rw [hstep, foldl_bitsetStep_none] at h; cases h
    | some bits' =>
      rw [hstep] at h
      obtain ⟨hrange, hbit, hbits'⟩ := bitsetStep_some hstep
      cases hv with
      | head => exact hbit
      | tail _ hv' =>
        have := ih h v hv'
        rw [hbits'] at this
        simp only [Nat.testBit_or, Bool.or_eq_false_iff] at this
        exact this.1

theorem foldl_bitsetStep_sound {vars : List ℕ} {bits r : ℕ}
    (h : vars.foldl bitsetStep (some bits) = some r) :
    vars.Nodup ∧ ∀ v ∈ vars, 1 ≤ v ∧ v ≤ kMaxGammaVariables := by
  induction vars generalizing bits with
  | nil => exact ⟨List.nodup_nil, by intro v hv; cases hv⟩
  | cons w rest ih =>
    rw [List.foldl_cons] at h
    cases hstep : bitsetStep (some bits) w with
    | none => rw [hstep, foldl_bitsetStep_none] at h; cases h
    | some bits' =>
      rw [hstep] at h
      obtain ⟨hrange, hbit, hbits'⟩ := bitsetStep_some hstep
      obtain ⟨hnodup, hallrange⟩ := ih h
      refine ⟨List.nodup_cons.mpr ⟨?_, hnodup⟩, ?_⟩
      · intro hmem
        have := foldl_bitsetStep_testBit h w hmem
        rw [hbits'] at this
        simp [Nat.testBit_or, Nat.testBit_two_pow_self] at this
      · intro v hv
        cases hv with
        | head => exact hrange
        | tail _ hv' => exact hallrange v hv'

/-- C7: the letter codec rejects by producing the nil letter: for every index
vector with an index outside 1..kMaxGammaVariables, or with a repeated index
(a degenerate minor), `Gamma(vars)` keeps its bitset empty, so `is_nil()` is
true. -/
theorem c7_gamma_codec_rejects_with_nil (vars : List ℕ)
    (h : (∃ v ∈ vars, v < 1 ∨ kMaxGammaVariables < v) ∨ ¬vars.Nodup) :
    (Gamma.ofVars vars).is_nil = true := by
  cases hfold : vector_to_bitset_or vars with
  | none => simp [Gamma.ofVars, hfold, Gamma.is_nil]
  | some bits =>
    exfalso
    obtain ⟨hnodup, hrange⟩ := foldl_bitsetStep_sound hfold
    cases h with
    | inl hbad =>
      obtain ⟨v, hv, hbad⟩ := hbad
      have := hrange v hv
      omega
    | inr hdup => exact hdup hnodup

/-- Witness for C7 at the concrete inputs `[17]` (outside the bound) and
`[3, 3]` (degenerate repeated index). -/
theorem c7_gamma_codec_rejects_with_nil_witness :
    ((∃ v ∈ [17], v < 1 ∨ kMaxGammaVariables < v) ∨ ¬([17] : List ℕ).Nodup) ∧
      (Gamma.ofVars [17]).is_nil = true ∧
      ((∃ v ∈ [3, 3], v < 1 ∨ kMaxGammaVariables < v) ∨ ¬([3, 3] : List ℕ).Nodup) ∧
      (Gamma.ofVars [3, 3]).is_nil = true :=
  ⟨by decide,
   c7_gamma_codec_rejects_with_nil [17] (by decide),
   by decide,
   c7_gamma_codec_rejects_with_nil [3, 3] (by decide)⟩

/-- C8 counterexample: in `GammaACoExprParam::lyndon_compare` (cited by the
claim) a strictly shorter part is NOT ordered before a longer one: the order
is length-first descending. -/
theorem c8_counterexample_aco_longer_first :
    ([⟨1⟩] : List Gamma).length < ([⟨1⟩, ⟨2⟩] : List Gamma).length ∧
      acoLyndonCompare [⟨1⟩] [⟨1⟩, ⟨2⟩] = false ∧
      acoLyndonCompare [⟨1⟩, ⟨2⟩] [⟨1⟩] = true := by
  decide

/-- C8 amended: the length-first policy of `GammaICoExprParam`
(`LYNDON_COMPARE_LENGTH_FIRST`) orders shorter parts first; the
`GammaACoExprParam::lyndon_compare` variant orders longer parts first
(descending length), in both cases before comparing content. -/
theorem c8_length_first_policies (l r : List Gamma) (h : l.length < r.length) :
    icoLyndonCompare l r = true ∧ acoLyndonCompare r l = true := by
  have hne : ¬ l.length = r.length := Nat.ne_of_lt h
  have hne' : ¬ r.length = l.length := fun hh => hne hh.symm
  constructor
  · simp [icoLyndonCompare, hne, h]
  · simp [acoLyndonCompare, hne', h]

/-- Witness for C8 amended at concrete parts of lengths 1 and 2. -/
theorem c8_length_first_policies_witness :
    ([⟨1⟩] : List Gamma).length < ([⟨1⟩, ⟨2⟩] : List Gamma).length ∧
      icoLyndonCompare [⟨1⟩] [⟨1⟩, ⟨2⟩] = true ∧
      acoLyndonCompare [⟨1⟩, ⟨2⟩] [⟨1⟩] = true :=
  ⟨by decide,
   (c8_length_first_policies [⟨1⟩] [⟨1⟩, ⟨2⟩] (by decide)).1,
   (c8_length_first_policies [⟨1⟩] [⟨1⟩, ⟨2⟩] (by decide)).2⟩

/-- `XForm` of the absent `x.h`, with the forms enumerated by the switches in
`delta.cpp`. -/
inductive XForm
  | var
  | neg_var
  | sq_var
  | zero
  | infinity
  | undefined
deriving DecidableEq

/-- Modelled from the spec: `X` of the absent `x.h`, an opaque comparable
symbol: a form tag plus a variable index (the index is unused by the constant
forms). -/
structure X where
  form : XForm
  idx : ℕ
deriving DecidableEq

/-- Rank giving the modelled total order on forms. -/
def XForm.rank : XForm → ℕ
  | XForm.undefined => 0
  | XForm.zero => 1
  | XForm.infinity => 2
  | XForm.var => 3
  | XForm.neg_var => 4
  | XForm.sq_var => 5

/-- Modelled from the spec: the total order on `X` (form first, then index). -/
def X.ltX (x y : X) : Bool :=
  if x.form = y.form then decide (x.idx < y.idx) else decide (x.form.rank < y.form.rank)

/-- `X::negated` as used by `substitution_result`: a variable toggles between
`var` and `neg_var`; other forms are unchanged. -/
def X.negated (x : X) : X :=
  match x.form with
  | XForm.var => ⟨XForm.neg_var, x.idx⟩
  | XForm.neg_var => ⟨XForm.var, x.idx⟩
  | _ => x

/-- `X::as_simple_var` of the absent `x.h`: the index of a plain variable;
fatal (`none`) on every other form. -/
def X.asSimpleVar (x : X) : Option ℕ :=
  if x.form = XForm.var then some x.idx else none

/-- Modelled from the spec: `Delta` of the absent `delta.h`: the difference
of two `X` symbols, stored with sorted endpoints so that equal differences
compare equal; nil when the endpoints coincide (the degenerate vanishing
construction of spec §3). -/
structure Delta where
  a : X
  b : X
deriving DecidableEq

/-- The normalizing `Delta` constructor: endpoints are stored in order. -/
def Delta.make (x y : X) : Delta := if X.ltX y x then ⟨y, x⟩ else ⟨x, y⟩

/-- `Delta::is_nil` of the absent `delta.h`: both endpoints coincide. -/
def Delta.is_nil (d : Delta) : Bool := decide (d.a = d.b)

/-- `substitution_result` (delta.cpp lines 75-89).  `none` models the fatal
`SWITCH_ENUM_OR_DIE` on `sq_var`/`undefined` and the bounds-checked
`new_points.at` access. -/
def substitutionResult (orig : X) (newPoints : List X) : Option X :=
  match orig.form with
  | XForm.var => newPoints.get? (orig.idx - 1)
  | XForm.neg_var => (newPoints.get? (orig.idx - 1)).map X.negated
  | XForm.sq_var => none
  | XForm.zero => some orig
  | XForm.infinity => some orig
  | XForm.undefined => none

/-- The delta built from one substituted letter of a term (the
`Delta d_new(...)` of delta.cpp lines 96-99); `none` when either endpoint
substitution is fatal. -/
def substDelta (d : Delta) (pts : List X) : Option Delta :=
  (substitutionResult d.a pts).bind (fun xa =>
    (substitutionResult d.b pts).map (fun xb => Delta.make xa xb))

/-- One term of `substitute_variables` (delta.cpp lines 93-105): the outer
`none` is a fatal substitution failure; `some none` is the term dropped as a
zero contribution because a substituted delta is nil (the early
`return {}`); `some (some t)` is the rewritten term. -/
def substituteTermDelta : List Delta → List X → Option (Option (List Delta))
  | [], _ => some (some [])
  | d :: rest, pts =>
    match substDelta d pts with
    | none => none
    | some dNew =>
      if dNew.is_nil then some none
      else (substituteTermDelta rest pts).map (fun r => r.map (fun t => dNew :: t))

/-- `substitute_variables` (delta.cpp lines 91-107) on a whole expression
(`mapped_expanding` over the terms): dropped terms contribute nothing. -/
def substitute_variables (e : LinExpr (List Delta)) (newPoints : List X) :
    Option (LinExpr (List Delta)) :=
  e.foldr (fun p acc =>
    acc.bind (fun rest =>
      (substituteTermDelta p.1 newPoints).map (fun r =>
        match r with
        | none => rest
        | some t => (t, p.2) :: rest))) (some [])

/-- C6: a term containing a nil letter silently yields the zero expression:
`G(vars)` is the empty expression whenever `Gamma(vars)` is nil (gamma.h
lines 146-149), and `substitute_variables` drops, with no fault raised, every
term in which some substituted delta becomes nil, provided each letter of the
term substitutes without a fatal error (delta.cpp lines 91-107). -/
theorem c6_nil_letter_yields_zero :
    (∀ vars : List ℕ, (Gamma.ofVars vars).is_nil = true → G vars = []) ∧
    (∀ (term : List Delta) (pts : List X),
      (∀ d ∈ term, (substDelta d pts).isSome = true) →
      (∃ d ∈ term, ∃ dn, substDelta d pts = some dn ∧ dn.is_nil = true) →
      substituteTermDelta term pts = some none) := by
  constructor
  · intro vars h
    simp [G, h]
  · intro term pts hdef hnil
    induction term with
    | nil => obtain ⟨d, hd, _⟩ := hnil; cases hd
    | cons d rest ih =>
      have hds := hdef d (List.mem_cons_self d rest)
      cases hsd : substDelta d pts with
      | none => rw [hsd] at hds; cases hds
      | some dn =>
        by_cases hn : dn.is_nil
        · simp [substituteTermDelta, hsd, hn]
        · have hrest : ∃ d' ∈ rest, ∃ dn', substDelta d' pts = some dn' ∧ dn'.is_nil = true := by
            obtain ⟨d', hd', dn', hsd', hn'⟩ := hnil
            cases hd' with
            | head =>
              rw [hsd] at hsd'
              cases hsd'
              exact absurd hn' hn
            | tail _ hmem => exact ⟨d', hmem, dn', hsd', hn'⟩
          have := ih (fun d' hd' => hdef d' (List.mem_cons_of_mem d hd')) hrest
          simp [substituteTermDelta, hsd, hn, this]

/-- Witness for C6 at `vars = [2, 2]` (degenerate Gamma) and at the one-letter
delta term `(x1 - x2)` substituted with `x3` for both variables. -/
theorem c6_nil_letter_yields_zero_witness :
    ((Gamma.ofVars [2, 2]).is_nil = true ∧ G [2, 2] = []) ∧
      substituteTermDelta [Delta.make ⟨XForm.var, 1⟩ ⟨XForm.var, 2⟩]
        [⟨XForm.var, 3⟩, ⟨XForm.var, 3⟩] = some none :=
  ⟨⟨by decide, c6_nil_letter_yields_zero.1 [2, 2] (by decide)⟩,
   c6_nil_letter_yields_zero.2 [Delta.make ⟨XForm.var, 1⟩ ⟨XForm.var, 2⟩]
     [⟨XForm.var, 3⟩, ⟨XForm.var, 3⟩] (by decide)
     ⟨Delta.make ⟨XForm.var, 1⟩ ⟨XForm.var, 2⟩, by decide, Delta.make ⟨XForm.var, 3⟩ ⟨XForm.var, 3⟩,
       by decide, by decide⟩⟩

/-- Strict order on deltas (endpoint pairs), for `sorted(term)`. -/
def Delta.ltD (d1 d2 : Delta) : Bool :=
  if d1.a = d2.a then X.ltX d1.b d2.b else X.ltX d1.a d2.a

/-- Insertion into a sorted list of deltas. -/
def insertSortedDelta (d : Delta) : List Delta → List Delta
  | [] => [d]
  | e :: rest => if Delta.ltD d e then d :: e :: rest else e :: insertSortedDelta d rest

/-- The `sorted(term)` copy used by the multiple-uniqueness filters. -/
def sortedTerm (t : List Delta) : List Delta := t.foldr insertSortedDelta []

/-- `absl::c_adjacent_find(term_sorted) != term_sorted.end()`: some equal
adjacent pair exists. -/
def hasAdjacentEqual : List Delta → Bool
  | [] => false
  | [_] => false
  | d :: e :: rest => decide (d = e) || hasAdjacentEqual (e :: rest)

/-- `terms_with_unique_muptiples` (delta.cpp lines 180-185): keeps the terms
whose sorted copy has no equal adjacent multipliers. -/
def terms_with_unique_muptiples (e : LinExpr (List Delta)) : LinExpr (List Delta) :=
  e.filter (fun p => !hasAdjacentEqual (sortedTerm p.1))

/-- `terms_with_nonunique_muptiples` (delta.cpp lines 187-192): keeps the
complementary terms. -/
def terms_with_nonunique_muptiples (e : LinExpr (List Delta)) : LinExpr (List Delta) :=
  e.filter (fun p => hasAdjacentEqual (sortedTerm p.1))

theorem coeff_filter_partition {K : Type} [DecidableEq K] (q : K × Int → Bool)
    (e : LinExpr K) (s : K) :
    coeff (e.filter (fun p => !(q p))) s + coeff (e.filter q) s = coeff e s := by
  induction e with
  | nil => simp [coeff]
  | cons p rest ih =>
    cases hq : q p with
    | true =>
      simp only [List.filter_cons, hq, Bool.not_true, Bool.false_eq_true, if_false, if_true, coeff]
      rw [← ih]
      ring
    | false =>
      simp only [List.filter_cons, hq, Bool.not_false, Bool.false_eq_true, if_false, if_true, coeff]
      rw [← ih]
      ring

/-- C9: the complementary filters `terms_with_unique_muptiples` and
`terms_with_nonunique_muptiples` partition every expression: their sum has
exactly the coefficients of the original expression. -/
theorem c9_unique_nonunique_partition (e : LinExpr (List Delta)) :
    exprEq (addE (terms_with_unique_muptiples e) (terms_with_nonunique_muptiples e)) e := by
  intro t
  rw [coeff_addE]
  exact coeff_filter_partition (fun p => hasAdjacentEqual (sortedTerm p.1)) e t

/-- `between` (delta.cpp lines 226-231); `none` models the failed
`CHECK_LT`/`ASSERT` (segment out of order, or the point equal to an
endpoint). -/
def between (point : ℕ) (a b : ℕ) : Option Bool :=
  if a < b ∧ point ≠ a ∧ point ≠ b then some (decide (a < point ∧ point < b)) else none

/-- `are_weakly_separated` (delta.cpp lines 234-247); `none` models a fatal
`as_simple_var`/`between` check failure, each endpoint read in source
order. -/
def are_weakly_separated (d1 d2 : Delta) : Option Bool :=
  if d1.is_nil || d2.is_nil then some true
  else
    (d1.a.asSimpleVar).bind (fun x1 =>
    (d1.b.asSimpleVar).bind (fun y1 =>
    (d2.a.asSimpleVar).bind (fun x2 =>
    (d2.b.asSimpleVar).bind (fun y2 =>
      if ¬(x1 ≠ y1 ∧ x1 ≠ x2 ∧ x1 ≠ y2 ∧ y1 ≠ x2 ∧ y1 ≠ y2 ∧ x2 ≠ y2) then some true
      else
        (between x1 x2 y2).bind (fun i1 =>
          (between y1 x2 y2).map (fun i2 => i1 == i2))))))

theorem asSimpleVar_var (i : ℕ) : X.asSimpleVar ⟨XForm.var, i⟩ = some i := rfl

theorem delta_make_var_var_lt {i j : ℕ} (h : i < j) :
    Delta.make ⟨XForm.var, i⟩ ⟨XForm.var, j⟩ = ⟨⟨XForm.var, i⟩, ⟨XForm.var, j⟩⟩ := by
  have hlt : X.ltX ⟨XForm.var, j⟩ ⟨XForm.var, i⟩ = false := by
    simp only [X.ltX, if_pos rfl, decide_eq_false_iff_not, ite_true, eq_self_iff_true]
    omega
  simp [Delta.make, hlt]

theorem delta_make_var_var_gt {i j : ℕ} (h : j < i) :
    Delta.make ⟨XForm.var, i⟩ ⟨XForm.var, j⟩ = ⟨⟨XForm.var, j⟩, ⟨XForm.var, i⟩⟩ := by
  have hlt : X.ltX ⟨XForm.var, j⟩ ⟨XForm.var, i⟩ = true := by
    simp only [X.ltX, if_pos rfl, decide_eq_true_eq, ite_true, eq_self_iff_true]
    omega
  simp [Delta.make, hlt]

/-- C10: `are_weakly_separated` is symmetric on the deltas on which it is
defined: each argument nil or a simple variable difference with distinct
endpoints. -/
theorem c10_are_weakly_separated_symmetric (d1 d2 : Delta)
    (h1 : d1.is_nil = true ∨
      ∃ i j, i ≠ j ∧ d1 = Delta.make ⟨XForm.var, i⟩ ⟨XForm.var, j⟩)
    (h2 : d2.is_nil = true ∨
      ∃ i j, i ≠ j ∧ d2 = Delta.make ⟨XForm.var, i⟩ ⟨XForm.var, j⟩) :
    are_weakly_separated d1 d2 = are_weakly_separated d2 d1 := by
  by_cases n1 : d1.is_nil
  · simp [are_weakly_separated, n1]
  · by_cases n2 : d2.is_nil
    · simp [are_weakly_separated, n1, n2]
    · have e1 : ∃ a b : ℕ, a < b ∧ d1 = ⟨⟨XForm.var, a⟩, ⟨XForm.var, b⟩⟩ := by
        rcases h1 with h1 | ⟨i, j, hij, rfl⟩
        · exact absurd h1 n1
        · rcases Nat.lt_or_ge i j with h | h
          · exact ⟨i, j, h, delta_make_var_var_lt h⟩
          · have hj : j < i := lt_of_le_of_ne h (Ne.symm hij)
            exact ⟨j, i, hj, delta_make_var_var_gt hj⟩
      have e2 : ∃ a b : ℕ, a < b ∧ d2 = ⟨⟨XForm.var, a⟩, ⟨XForm.var, b⟩⟩ := by
        rcases h2 with h2 | ⟨i, j, hij, rfl⟩
        · exact absurd h2 n2
        · rcases Nat.lt_or_ge i j with h | h
          · exact ⟨i, j, h, delta_make_var_var_lt h⟩
          · have hj : j < i := lt_of_le_of_ne h (Ne.symm hij)
            exact ⟨j, i, hj, delta_make_var_var_gt hj⟩
      obtain ⟨a1, b1, hab1, rfl⟩ := e1
      obtain ⟨a2, b2, hab2, rfl⟩ := e2
      clear h1 h2
      unfold are_weakly_separated
      rw [if_neg (by simp_all), if_neg (by simp_all)]
      simp only [asSimpleVar_var, Option.some_bind]
      by_cases hu : a1 ≠ b1 ∧ a1 ≠ a2 ∧ a1 ≠ b2 ∧ b1 ≠ a2 ∧ b1 ≠ b2 ∧ a2 ≠ b2
      · have hu' : a2 ≠ b2 ∧ a2 ≠ a1 ∧ a2 ≠ b1 ∧ b2 ≠ a1 ∧ b2 ≠ b1 ∧ a1 ≠ b1 := by
          obtain ⟨u1, u2, u3, u4, u5, u6⟩ := hu
          exact ⟨u6, Ne.symm u2, Ne.symm u4, Ne.symm u3, Ne.symm u5, u1⟩
        obtain ⟨u1, u2, u3, u4, u5, u6⟩ := hu
        have B1 : between a1 a2 b2 = some (decide (a2 < a1 ∧ a1 < b2)) := by
          unfold between
          exact if_pos ⟨hab2, u2, u3⟩
        have B2 : between b1 a2 b2 = some (decide (a2 < b1 ∧ b1 < b2)) := by
          unfold between
          exact if_pos ⟨hab2, u4, u5⟩
        have B3 : between a2 a1 b1 = some (decide (a1 < a2 ∧ a2 < b1)) := by
          unfold between
          exact if_pos ⟨hab1, Ne.symm u2, Ne.symm u4⟩
        have B4 : between b2 a1 b1 = some (decide (a1 < b2 ∧ b2 < b1)) := by
          unfold between
          exact if_pos ⟨hab1, Ne.symm u3, Ne.symm u5⟩
        rw [if_neg (not_not_intro ⟨u1, u2, u3, u4, u5, u6⟩), if_neg (not_not_intro hu')]
        rw [B1, B2, B3, B4]
        simp only [Option.some_bind, Option.map_some']
        congr 1
        rw [Bool.eq_iff_iff]
        simp only [beq_iff_eq, decide_eq_decide]
        omega
      · have hu' : ¬(a2 ≠ b2 ∧ a2 ≠ a1 ∧ a2 ≠ b1 ∧ b2 ≠ a1 ∧ b2 ≠ b1 ∧ a1 ≠ b1) := by
          intro hc
          obtain ⟨u1, u2, u3, u4, u5, u6⟩ := hc
          exact hu ⟨u6, Ne.symm u2, Ne.symm u4, Ne.symm u3, Ne.symm u5, u1⟩
        rw [if_pos hu, if_pos hu']

/-- Modelled from the spec: the compound cross-ratio held by a Theta
complement factor (`CompoundRatio` of the absent `delta_ratio.h`), a product
of index loops. -/
structure CompoundRatioData where
  loops : List (List ℕ)
deriving DecidableEq

/-- Modelled from the spec (§4.1): `compress_compound_ratio` of the absent
compression layer: a length-prefixed flat packing of the loops. -/
def compress_compound_ratio (r : CompoundRatioData) : List ℕ :=
  r.loops.foldr (fun l acc => (l.length :: l) ++ acc) []

/-- Decoder for a length-prefixed flat packing of lists. -/
def decodeLoops : List ℕ → List (List ℕ)
  | [] => []
  | n :: rest => rest.take n :: decodeLoops (rest.drop n)
termination_by l => l.length
decreasing_by
  simp only [List.length_drop, List.length_cons]
  omega

/-- Modelled from the spec (§4.1): `uncompress_compound_ratio`, inverse of the
packing. -/
def uncompress_compound_ratio (key : List ℕ) : CompoundRatioData :=
  ⟨decodeLoops key⟩

theorem decodeLoops_nil : decodeLoops [] = [] := by
  simp [decodeLoops]

theorem decodeLoops_cons (n : ℕ) (rest : List ℕ) :
    decodeLoops (n :: rest) = rest.take n :: decodeLoops (rest.drop n) := by
  simp [decodeLoops]

theorem decodeLoops_compress (ls : List (List ℕ)) :
    decodeLoops (ls.foldr (fun l acc => (l.length :: l) ++ acc) []) = ls := by
  induction ls with
  | nil => exact decodeLoops_nil
  | cons l rest ih =>
    rw [List.foldr_cons, List.cons_append, decodeLoops_cons, List.take_left,
      List.drop_left, ih]

theorem uncompress_compress (r : CompoundRatioData) :
    uncompress_compound_ratio (compress_compound_ratio r) = r := by
  obtain ⟨ls⟩ := r
  show CompoundRatioData.mk
    (decodeLoops (ls.foldr (fun l acc => (l.length :: l) ++ acc) [])) = ⟨ls⟩
  rw [decodeLoops_compress]

/-- Modelled from the spec: `LiraParam` of the absent
`polylog_lira_param.h`: a foreweight, the weight list and the compound-ratio
arguments of a Lira formal symbol. -/
structure LiraParamData where
  foreweight : ℕ
  weights : List ℕ
  ratios : List CompoundRatioData
deriving DecidableEq

/-- Modelled from the spec (§4.1): `lira_param_to_key`, a length-prefixed
flat packing of the whole parameter. -/
def lira_param_to_key (p : LiraParamData) : List ℕ :=
  p.foreweight :: p.weights.length ::
    (p.weights ++ p.ratios.foldr
      (fun r acc =>
        ((compress_compound_ratio r).length :: compress_compound_ratio r) ++ acc) [])

/-- Decoder for the ratio section of a packed Lira parameter. -/
def decodeRatioKeys : List ℕ → List CompoundRatioData
  | [] => []
  | n :: rest => uncompress_compound_ratio (rest.take n) :: decodeRatioKeys (rest.drop n)
termination_by l => l.length
decreasing_by
  simp only [List.length_drop, List.length_cons]
  omega

/-- Modelled from the spec (§4.1): `key_to_lira_param`, inverse of the
packing (a malformed key decodes to the default parameter). -/
def key_to_lira_param : List ℕ → LiraParamData
  | fw :: wlen :: rest => ⟨fw, rest.take wlen, decodeRatioKeys (rest.drop wlen)⟩
  | _ => ⟨0, [], []⟩

theorem decodeRatioKeys_nil : decodeRatioKeys [] = [] := by
  simp [decodeRatioKeys]

theorem decodeRatioKeys_cons (n : ℕ) (rest : List ℕ) :
    decodeRatioKeys (n :: rest) =
      uncompress_compound_ratio (rest.take n) :: decodeRatioKeys (rest.drop n) := by
  simp [decodeRatioKeys]

theorem decodeRatioKeys_encode (rs : List CompoundRatioData) :
    decodeRatioKeys (rs.foldr
      (fun r acc =>
        ((compress_compound_ratio r).length :: compress_compound_ratio r) ++ acc) []) = rs := by
  induction rs with
  | nil => exact decodeRatioKeys_nil
  | cons r rest ih =>
    rw [List.foldr_cons, List.cons_append, decodeRatioKeys_cons, List.take_left,
      List.drop_left, ih, uncompress_compress]

theorem key_to_lira_param_roundtrip (p : LiraParamData) :
    key_to_lira_param (lira_param_to_key p) = p := by
  obtain ⟨fw, ws, rs⟩ := p
  simp only [lira_param_to_key, key_to_lira_param]
  rw [List.take_left, List.drop_left, decodeRatioKeys_encode]

/-- `Theta` (theta.h line 41): one tensor factor, either a difference
(`Delta`) or a complement `1 - ratio` (`ThetaComplement`, theta.h lines
27-39, which holds just the compound ratio). -/
inductive Theta
  | delta (d : Delta)
  | complement (r : CompoundRatioData)
deriving DecidableEq

/-- `ThetaPack` (theta.h line 43): a product of Theta factors, or a Lira
formal symbol. -/
inductive ThetaPack
  | product (l : List Theta)
  | formal (p : LiraParamData)
deriving DecidableEq

/-- `ThetaStorageType` (theta.h line 69). -/
inductive ThetaStorage
  | delta (d : Delta)
  | compressed (k : List ℕ)
deriving DecidableEq

/-- `ThetaPackStorageType` (theta.h line 71). -/
inductive ThetaPackStorage
  | product (l : List ThetaStorage)
  | formalKey (k : List ℕ)
deriving DecidableEq

/-- `theta_to_key` (theta.h lines 73-82). -/
def theta_to_key : Theta → ThetaStorage
  | Theta.delta d => ThetaStorage.delta d
  | Theta.complement r => ThetaStorage.compressed (compress_compound_ratio r)

/-- `key_to_theta` (theta.h lines 84-93). -/
def key_to_theta : ThetaStorage → Theta
  | ThetaStorage.delta d => Theta.delta d
  | ThetaStorage.compressed k => Theta.complement (uncompress_compound_ratio k)

/-- `theta_pack_to_key` (theta.h lines 95-106): products map factor-wise, a
formal symbol packs through the Lira codec. -/
def theta_pack_to_key : ThetaPack → ThetaPackStorage
  | ThetaPack.product l => ThetaPackStorage.product (l.map theta_to_key)
  | ThetaPack.formal p => ThetaPackStorage.formalKey (lira_param_to_key p)

/-- `key_to_theta_pack` (theta.h lines 108-117). -/
def key_to_theta_pack : ThetaPackStorage → ThetaPack
  | ThetaPackStorage.product l => ThetaPack.product (l.map key_to_theta)
  | ThetaPackStorage.formalKey k => ThetaPack.formal (key_to_lira_param k)

theorem key_to_theta_roundtrip (t : Theta) : key_to_theta (theta_to_key t) = t := by
  cases t with
  | delta d => rfl
  | complement r =>
    simp [theta_to_key, key_to_theta, uncompress_compress]

/-- C5: key round-trip: decoding the packed key of a term recovers the term
exactly: for every vector of Gamma letters under `GammaExprParam`, and for
every `ThetaPack` (a product of Theta factors or a Lira formal symbol) under
`theta_pack_to_key` / `key_to_theta_pack`. -/
theorem c5_key_round_trip :
    (∀ t : List Gamma, gammaKeyToObject (gammaObjectToKey t) = t) ∧
    (∀ p : ThetaPack, key_to_theta_pack (theta_pack_to_key p) = p) := by
  constructor
  · intro t
    rfl
  · intro p
    cases p with
    | product l =>
      simp only [theta_pack_to_key, key_to_theta_pack, List.map_map]
      rw [show key_to_theta ∘ theta_to_key = id from funext key_to_theta_roundtrip,
        List.map_id]
    | formal q =>
      simp [theta_pack_to_key, key_to_theta_pack, key_to_lira_param_roundtrip]

/-- Modelled from the spec: `Epsilon` of the absent `epsilon.h`: a letter is
a variable `x_i` or a complement `1 - x_{i1}...x_{ik}` (the index set kept as
a sorted duplicate-free list, the analogue of the source's bitset). -/
inductive Epsilon
  | var (i : ℕ)
  | complement (s : List ℕ)
deriving DecidableEq

/-- Sorted insertion of a natural number. -/
def insertNatLe (v : ℕ) : List ℕ → List ℕ
  | [] => [v]
  | w :: rest => if v ≤ w then v :: w :: rest else w :: insertNatLe v rest

/-- Canonical (sorted, duplicate-free) form of an index set, as the bitset
representation of the source makes index sets canonical. -/
def canonIdx (s : List ℕ) : List ℕ := (s.foldr insertNatLe []).dedup

/-- Modelled from the spec: `LiParam` of the absent `polylog_li_param.h`: the
foreweight, weight list and point lists of a Li formal symbol. -/
structure LiParam where
  foreweight : ℕ
  weights : List ℕ
  points : List (List ℕ)
deriving DecidableEq

/-- Modelled from the spec: `LiParam::sign`, the sign `(-1)^depth` relating a
Li function of depth `weights.size()` to its iterated integral; the
convention is pinned by the repository test `CoalgebraUtilTest.FilterCoexpr`
(src/unnamed/part_000). -/
def LiParam.sign (p : LiParam) : Int := if p.weights.length % 2 = 0 then 1 else -1

/-- Modelled from the spec: `EpsilonPack` of the absent `epsilon.h` (the
tagged union of §3): a raw product of letters, or an opaque Li formal
symbol. -/
inductive EpsilonPack
  | product (l : List Epsilon)
  | formal (p : LiParam)
deriving DecidableEq

abbrev EpsilonExpr : Type := LinExpr EpsilonPack

/-- An expression all of whose terms are raw letter products (the image of
the Li symbol construction, which never emits formal-symbol terms). -/
abbrev EpsilonProdExpr : Type := LinExpr (List Epsilon)

abbrev EpsilonICoExpr : Type := LinExpr (EpsilonPack × EpsilonPack)

/-- `kZero`/`kOne` dot tests of polylog_li.cpp lines 19-24. -/
def isVarDot (i : Int) : Bool := decide (1 ≤ i)

def isZeroDot (i : Int) : Bool := decide (i = 0)

def isOneDot (i : Int) : Bool := decide (i = -1)

/-- Inclusive integer range as a list (empty when the upper end is below the
lower). -/
def intRangeIncl (lo hi : Int) : List Int :=
  (List.range (hi + 1 - lo).toNat).map (fun k => lo + (k : Int))

/-- Modelled from the spec: `EVar` of the absent `epsilon.h`. -/
def EVar (i : ℕ) : EpsilonProdExpr := singleE [Epsilon.var i] 1

/-- Modelled from the spec: `EComplementIndexList` of the absent
`epsilon.h`. -/
def EComplementIndexList (s : List ℕ) : EpsilonProdExpr :=
  singleE [Epsilon.complement (canonIdx s)] 1

/-- Modelled from the spec: `EComplementRangeInclusive` of the absent
`epsilon.h`. -/
def EComplementRangeIncl (lo hi : Int) : EpsilonProdExpr :=
  singleE [Epsilon.complement (canonIdx ((intRangeIncl lo hi).map Int.toNat))] 1

/-- `EVarProd` (polylog_li.cpp lines 94-100): the sum of the variables of an
inclusive range (the symbol of `d log` of a product). -/
def EVarProd (lo hi : Int) : EpsilonProdExpr :=
  (intRangeIncl lo hi).foldr (fun i acc => addE (EVar i.toNat) acc) []

/-- `Li_2_point_irreducible` (polylog_li.cpp lines 102-120).  The source's
CHECKs are assertions about its callers and are not modelled; this function
is only exercised inside the caller contract. -/
def Li_2_point_irreducible (a b : Int) : EpsilonProdExpr :=
  if ¬ isVarDot a ∧ ¬ isVarDot b then []
  else
    let p := if isVarDot a then (b, a) else (a, b)
    if isZeroDot p.1 then EVarProd 1 p.2
    else EComplementRangeIncl 1 p.2

/-- `Li_3_point` (polylog_li.cpp lines 123-191): the symbol of the three-point
cut `(p2 - p1)/(p1 - p0)`.  The unreachable `FATAL` branch cannot occur since
at most three of the points are variables. -/
def Li_3_point (a b c : Int) : EpsilonProdExpr :=
  let numVars := (if isVarDot a then 1 else 0) + (if isVarDot b then 1 else 0) +
    (if isVarDot c then 1 else 0)
  if numVars = 0 then []
  else if numVars = 1 then
    addE (Li_2_point_irreducible c b) (smulE (-1) (Li_2_point_irreducible b a))
  else if numVars = 2 then
    if ¬ isVarDot a then
      if isZeroDot a then EComplementRangeIncl (b + 1) c
      else
        addE (EVarProd 1 b)
          (addE (EComplementRangeIncl (b + 1) c) (smulE (-1) (EComplementRangeIncl 1 b)))
    else if ¬ isVarDot b then
      if isZeroDot b then EVarProd (a + 1) c
      else addE (EComplementRangeIncl 1 c) (smulE (-1) (EComplementRangeIncl 1 a))
    else
      addE (EVarProd (a + 1) b) (smulE (-1) (EComplementRangeIncl (a + 1) b))
  else
    addE (EVarProd (a + 1) b)
      (addE (EComplementRangeIncl (b + 1) c) (smulE (-1) (EComplementRangeIncl (a + 1) b)))

/-- Modelled from the spec (§4.3): `tensor_product` on expressions over raw
letter products: key concatenation with coefficient product. -/
def tensorProdExpr (e1 e2 : EpsilonProdExpr) : EpsilonProdExpr :=
  e1.foldr (fun p acc => (e2.map (fun q => (p.1 ++ q.1, p.2 * q.2))) ++ acc) []

/-- `removed_index` of the source utilities. -/
def removedIndex {α : Type} (l : List α) (i : ℕ) : List α := l.take i ++ l.drop (i + 1)

/-- `slice(v, a, b)` of the source utilities: the half-open index range. -/
def sliceL {α : Type} (l : List α) (a b : ℕ) : List α := (l.drop a).take (b - a)

/-- `removed_slice(v, a, b)` of the source utilities. -/
def removedSlice {α : Type} (l : List α) (a b : ℕ) : List α := l.take a ++ l.drop b

/-- `choose_indices(v, idx)` of the source utilities. -/
def chooseIndices (l : List Int) (idx : List ℕ) : List Int := idx.map (fun i => l.getD i 0)

/-- `Li_impl` (polylog_li.cpp lines 193-208), on explicit fuel (the list
length bounds the recursion depth, each call removing one point). -/
def LiImplFuel : ℕ → List Int → EpsilonProdExpr
  | 0, _ => []
  | fuel + 1, points =>
    if points.length < 3 then []
    else if points.length = 3 then
      Li_3_point (points.getD 0 0) (points.getD 1 0) (points.getD 2 0)
    else
      ((List.range (points.length - 2)).map (fun i =>
        tensorProdExpr (LiImplFuel fuel (removedIndex points (i + 1)))
          (Li_3_point (points.getD i 0) (points.getD (i + 1) 0)
            (points.getD (i + 2) 0)))).flatten

/-- `Li_impl` (polylog_li.cpp lines 193-208). -/
def Li_impl (points : List Int) : EpsilonProdExpr := LiImplFuel points.length points

/-- All interleavings of two words, on explicit fuel (the summed length). -/
def shuffleWordsFuel : ℕ → List Epsilon → List Epsilon → List (List Epsilon)
  | 0, xs, ys => [xs ++ ys]
  | _ + 1, [], ys => [ys]
  | _ + 1, x :: xs, [] => [x :: xs]
  | fuel + 1, x :: xs, y :: ys =>
    ((shuffleWordsFuel fuel xs (y :: ys)).map (fun w => x :: w)) ++
    ((shuffleWordsFuel fuel (x :: xs) ys).map (fun w => y :: w))

/-- Modelled from the spec: the shuffle product of two words (all
order-preserving interleavings). -/
def shuffleWords (xs ys : List Epsilon) : List (List Epsilon) :=
  shuffleWordsFuel (xs.length + ys.length) xs ys

/-- Modelled from the spec: the shuffle product of two expressions over raw
letter products (`shuffle_product_expr` of the absent `algebra.h` on a pair),
bilinear over the word shuffle. -/
def shuffleExpr (e1 e2 : EpsilonProdExpr) : EpsilonProdExpr :=
  e1.foldr (fun p acc =>
    (e2.foldr (fun q acc2 =>
      ((shuffleWords p.1 q.1).map (fun w => (w, p.2 * q.2))) ++ acc2) []) ++ acc) []

/-- Modelled from the spec: `shuffle_product_expr` of the absent `algebra.h`
over a span of expressions (the shuffle unity is the empty product). -/
def shuffle_product_expr (es : List EpsilonProdExpr) : EpsilonProdExpr :=
  es.foldl shuffleExpr (singleE [] 1)

/-- Modelled from the spec: substitution of one epsilon letter
(`substitute_variables` of the absent `epsilon.h`): the prototype variable
`i` denotes the product of the points in `new_points[i-1]`, so a variable
letter expands into the sum of the variables of its point list, and a
complement letter maps to the complement of the union of the point lists of
its indices.  An out-of-range index is a fatal CHECK in the source and is not
modelled (the inputs of this development keep every index in range). -/
def substLetter (pts : List (List ℕ)) : Epsilon → EpsilonProdExpr
  | Epsilon.var i => (pts.getD (i - 1) []).foldr (fun j acc => addE (EVar j) acc) []
  | Epsilon.complement s =>
    singleE [Epsilon.complement
      (canonIdx (s.foldr (fun i acc => pts.getD (i - 1) [] ++ acc) []))] 1

/-- Substitution of a whole product term, distributing over the letters. -/
def substProdTerm (pts : List (List ℕ)) : List Epsilon → EpsilonProdExpr
  | [] => singleE [] 1
  | e :: rest => tensorProdExpr (substLetter pts e) (substProdTerm pts rest)

/-- Substitution inside a Li formal symbol: each point list maps to the union
of the point lists of its members. -/
def substLiParam (pts : List (List ℕ)) (p : LiParam) : LiParam :=
  ⟨p.foreweight, p.weights,
    p.points.map (fun pl => canonIdx (pl.foldr (fun i acc => pts.getD (i - 1) [] ++ acc) []))⟩

/-- Modelled from the spec: `substitute_variables` of the absent `epsilon.h`
on a pack-typed expression (`mapped_expanding` over the terms). -/
def substPackExpr (pts : List (List ℕ)) (e : EpsilonExpr) : EpsilonExpr :=
  e.foldr (fun p acc =>
    (match p.1 with
     | EpsilonPack.product l =>
       (substProdTerm pts l).map (fun q => (EpsilonPack.product q.1, p.2 * q.2))
     | EpsilonPack.formal lp => [(EpsilonPack.formal (substLiParam pts lp), p.2)]) ++ acc) []

/-- Injection of a product-typed expression into pack-typed expressions. -/
def liftProd (e : EpsilonProdExpr) : EpsilonExpr :=
  e.map (fun p => (EpsilonPack.product p.1, p.2))

/-- Modelled from the spec: `EUnity` of the absent `epsilon.h`: the empty
product. -/
def EUnity : EpsilonExpr := singleE (EpsilonPack.product []) 1

/-- Modelled from the spec: `EFormalSymbolPositive` of the absent
`epsilon.h`. -/
def EFormalSymbolPositive (p : LiParam) : EpsilonExpr := singleE (EpsilonPack.formal p) 1

/-- Modelled from the spec: `EFormalSymbolSigned` of the absent `epsilon.h`:
the formal symbol weighted by the parameter's sign. -/
def EFormalSymbolSigned (p : LiParam) : EpsilonExpr := singleE (EpsilonPack.formal p) p.sign

/-- `weights_to_dots` (polylog_li.cpp lines 27-44). -/
def weightsToDots (foreweight : ℕ) (weights : List ℕ) : List Int :=
  (List.replicate (foreweight + 1) (0 : Int)) ++ [(-1 : Int)] ++
    (weights.enum.foldr (fun iw acc =>
      (List.replicate (iw.2 - 1) (0 : Int)) ++ [((iw.1 : Int) + 1)] ++ acc) [])

/-- Inclusive natural range from integer ends (`range_incl` of the source). -/
def rangeInclInt (lo hi : Int) : List ℕ :=
  List.range' lo.toNat (hi.toNat + 1 - lo.toNat)

/-- The weight/point accumulation loop of `dots_to_li_params` (polylog_li.cpp
lines 67-85), walking the dots after the first nonzero entry. -/
def liAccum (commonVars : Int) : List Int → ℕ → Int → (List ℕ × List (List ℕ))
  | [], _, _ => ([], [])
  | dot :: rest, curWeight, prevVars =>
    if isVarDot dot then
      let res := liAccum commonVars rest 0 dot
      ((curWeight + 1) :: res.1,
        rangeInclInt (commonVars + prevVars + 1) (commonVars + dot) :: res.2)
    else liAccum commonVars rest (curWeight + 1) prevVars

/-- `dots_to_li_params` (polylog_li.cpp lines 46-88): cancel a leading common
variable block, then cut the remaining dots into weights and point ranges.
The source's CHECKs are assertions about its callers and are not modelled. -/
def dotsToLiParams (dotsOrig : List Int) : LiParam :=
  let firstNonzero := dotsOrig.findIdx (fun d => !isZeroDot d)
  let d0 := dotsOrig.getD firstNonzero 0
  let commonVars : Int := if isVarDot d0 then d0 else 0
  let dots := dotsOrig.enum.map (fun id =>
    if id.1 = firstNonzero ∧ isVarDot d0 then (-1 : Int)
    else if 2 ≤ id.1 ∧ isVarDot id.2 then id.2 - commonVars
    else id.2)
  let res := liAccum commonVars (dots.drop (firstNonzero + 1)) 0 0
  ⟨firstNonzero - 1, res.1, res.2⟩

/-- Modelled from the spec: `increasing_sequences(n)` of the absent
`sequence_iteration.h`: every strictly increasing sequence of values of
`0..n-1`, i.e. every order-preserving sublist of `range n`. -/
def increasingSequences (n : ℕ) : List (List ℕ) :=
  (List.range n).foldr (fun a acc => acc.map (a :: ·) ++ acc) [[]]

/-- The split sequence built from one `seq_prototype` (polylog_li.cpp lines
249-254): `0`, the shifted prototype, and the last dot index. -/
def seqOf (dotsLen : ℕ) (proto : List ℕ) : List ℕ :=
  0 :: (proto.map (· + 1)) ++ [dotsLen - 1]

/-- Consecutive gaps all equal to one. -/
def allGapsOne : List ℕ → Bool
  | a :: b :: rest => decide (b = a + 1) && allGapsOne (b :: rest)
  | _ => true

/-- The `two_formal_symbols_special_case` test (polylog_li.cpp lines
256-262): every gap after the first one is one. -/
def isSpecialSeq (seq : List ℕ) : Bool := allGapsOne (seq.drop 1)

/-- Consecutive pairs of a sequence. -/
def seqPairs : List ℕ → List (ℕ × ℕ)
  | a :: b :: rest => (a, b) :: seqPairs (b :: rest)
  | _ => []

/-- The rhs components of one general-case term of `CoLiVec` (polylog_li.cpp
lines 275-286); `none` encodes `term_is_zero` (a long gap bounded by two
zero dots). -/
def gapComponents (dots : List Int) (seq : List ℕ) : Option (List EpsilonProdExpr) :=
  (seqPairs seq).foldl (fun acc pr =>
    acc.bind (fun comps =>
      if pr.2 - pr.1 ≤ 1 then some comps
      else if isZeroDot (dots.getD pr.1 0) ∧ isZeroDot (dots.getD pr.2 0) then none
      else some (comps ++ [Li_impl (sliceL dots pr.1 (pr.2 + 1))]))) (some [])

/-- The left tensor factor contributed by one `seq_prototype` of `CoLiVec`
(polylog_li.cpp lines 245-293), already substituted with the parameter
points; the empty expression when the iteration adds no term for this
prototype (empty prototype, special case without a variable at the cut, or a
vanishing general term). -/
def lhsExprOf (dots : List Int) (pts : List (List ℕ)) (proto : List ℕ) : EpsilonExpr :=
  if proto = [] then []
  else
    let seq := seqOf dots.length proto
    if isSpecialSeq seq then
      let cut := seq.getD 1 0
      if isVarDot (dots.getD cut 0) then
        substPackExpr pts (EFormalSymbolSigned (dotsToLiParams (removedSlice dots 1 cut)))
      else []
    else
      match gapComponents dots seq with
      | none => []
      | some _ =>
        substPackExpr pts (EFormalSymbolSigned (dotsToLiParams (chooseIndices dots seq)))

/-- The right tensor factor of the same contribution (the upper formal symbol
in the special case, the shuffle product of the components in the general
case). -/
def rhsExprOf (dots : List Int) (pts : List (List ℕ)) (proto : List ℕ) : EpsilonExpr :=
  if proto = [] then []
  else
    let seq := seqOf dots.length proto
    if isSpecialSeq seq then
      let cut := seq.getD 1 0
      if isVarDot (dots.getD cut 0) then
        substPackExpr pts (EFormalSymbolSigned (dotsToLiParams (sliceL dots 0 (cut + 1))))
      else []
    else
      match gapComponents dots seq with
      | none => []
      | some comps => substPackExpr pts (liftProd (shuffle_product_expr comps))

/-- One prototype's contribution to `CoLiVec`: the iterated coproduct
(`icoproduct` of the absent `coalgebra.h`; for the Hopf-flavored epsilon
co-expressions this is the plain pair tensor of §4.4) of the substituted
factors.  A prototype the source skips contributes the empty expression
through an empty factor. -/
def seqContribution (dots : List Int) (pts : List (List ℕ)) (proto : List ℕ) :
    EpsilonICoExpr :=
  coproduct (lhsExprOf dots pts proto) (rhsExprOf dots pts proto)

/-- The body of `CoLiVec` over its dots vector: the sum over all split
sequences plus the two unity co-terms, weighted by the parameter sign. -/
def CoLiVecBody (param : LiParam) (dots : List Int) : EpsilonICoExpr :=
  smulE param.sign
    (((increasingSequences (dots.length - 2)).foldl
        (fun acc proto => acc ++ seqContribution dots param.points proto) []) ++
      coproduct EUnity (EFormalSymbolSigned param) ++
      coproduct (EFormalSymbolSigned param) EUnity)

/-- `CoLiVec` (polylog_li.cpp lines 233-298): the comultiplication of a Li
function as a sum over all split sequences, plus the two unity co-terms, all
weighted by the parameter sign.  The diagnostic annotation of the source
carries no semantic weight (spec §3) and is not modelled. -/
def CoLiVec (param : LiParam) : EpsilonICoExpr :=
  CoLiVecBody param (weightsToDots param.foreweight param.weights)

/-- Modelled from the spec (§4.4): `filter_coexpr_predicate` of the absent
`coalgebra.h` on a two-slot co-expression: walks every co-term, applies the
predicate to the pack in the given slot, and drops the co-term when the
predicate fails. -/
def filter_coexpr_predicate (e : EpsilonICoExpr) (slot : ℕ)
    (pred : EpsilonPack → Bool) : EpsilonICoExpr :=
  e.filter (fun p => pred (if slot = 0 then p.1.1 else p.1.2))

/-- The slot-0 predicate of `CoalgebraUtilTest.FilterCoexpr`
(src/unnamed/part_000 lines 73-83): false on a raw product, true on a formal
symbol exactly when it has one point list, that list has two points, and the
first weight is at least 5. -/
def predC4 : EpsilonPack → Bool
  | EpsilonPack.product _ => false
  | EpsilonPack.formal p =>
    decide (p.points.length = 1) && decide ((p.points.headD []).length = 2) &&
      decide (5 ≤ p.weights.headD 0)

/-- The expected filtered co-expression of `CoalgebraUtilTest.FilterCoexpr`
(src/unnamed/part_000 lines 86-89). -/
def expectedC4 : EpsilonICoExpr :=
  addE
    (smulE (-1) (coproduct (EFormalSymbolPositive ⟨1, [5], [[1, 2]]⟩) (liftProd (EVar 1))))
    (coproduct (EFormalSymbolPositive ⟨1, [5], [[1, 2]]⟩) (liftProd (EComplementIndexList [1])))

/-- Self-delimiting code of a letter, for the normal-form order. -/
def encEpsilon : Epsilon → List ℕ
  | Epsilon.var i => [0, i]
  | Epsilon.complement s => 1 :: s.length :: s

/-- Self-delimiting code of a Li parameter. -/
def encLiParam (p : LiParam) : List ℕ :=
  p.foreweight :: p.weights.length :: p.weights ++ p.points.length ::
    (p.points.foldr (fun pl acc => pl.length :: pl ++ acc) [])

/-- Self-delimiting code of a pack. -/
def encPack : EpsilonPack → List ℕ
  | EpsilonPack.product l => 0 :: l.length :: (l.foldr (fun e acc => encEpsilon e ++ acc) [])
  | EpsilonPack.formal p => 1 :: encLiParam p

/-- Order on epsilon co-terms, for normal forms. -/
def ltEpsCoTerm (a b : EpsilonPack × EpsilonPack) : Bool :=
  ltListNat (encPack a.1 ++ encPack a.2) (encPack b.1 ++ encPack b.2)

/-- Modelled from the spec: the `CoLi` factory of `polylog_li.h` (absent
from src/): `CoLi(w_1,...,w_n)(p_1,...,p_n)` is `CoLiVec` with the Li
foreweight 1 of the repository convention (the weight bookkeeping of the
test's expected output pins this foreweight). -/
def CoLi (weights : List ℕ) (points : List (List ℕ)) : EpsilonICoExpr :=
  CoLiVec ⟨1, weights, points⟩

theorem coproduct_cons {A B : Type} (p : A × Int) (rest : LinExpr A) (re : LinExpr B) :
    coproduct (p :: rest) re =
      (re.map (fun q => ((p.1, q.1), p.2 * q.2))) ++ coproduct rest re := rfl

/-- A slot-0 filter commutes with a coefficient-only map. -/
theorem filter_map_fst_co (pred : EpsilonPack → Bool) (f : Int → Int)
    (e : EpsilonICoExpr) :
    List.filter (fun p => pred p.1.1) (e.map (fun p => (p.1, f p.2))) =
      (List.filter (fun p => pred p.1.1) e).map (fun p => (p.1, f p.2)) := by
  induction e with
  | nil => rfl
  | cons p rest ih =>
    cases hq : pred p.1.1 with
    | true => simp [List.filter_cons, hq, ih]
    | false => simp [List.filter_cons, hq, ih]

/-- Filtering distributes into an append-accumulating fold. -/
theorem filter_foldl_append {α K : Type} (q : K × Int → Bool) (f : α → LinExpr K)
    (l : List α) (init : LinExpr K) :
    List.filter q (l.foldl (fun acc x => acc ++ f x) init) =
      l.foldl (fun acc x => acc ++ List.filter q (f x)) (List.filter q init) := by
  induction l generalizing init with
  | nil => rfl
  | cons x rest ih =>
    simp only [List.foldl_cons]
    rw [ih, List.filter_append]

/-- A slot-0 filter over one left factor keeps or drops its whole row. -/
theorem filter_map_pair_const (pred : EpsilonPack → Bool) (x : EpsilonPack) (c : Int)
    (re : EpsilonExpr) :
    List.filter (fun p => pred p.1.1) (re.map (fun q => ((x, q.1), c * q.2))) =
      if pred x then re.map (fun q => ((x, q.1), c * q.2)) else [] := by
  induction re with
  | nil => cases hp : pred x <;> simp
  | cons q rest ih =>
    cases hp : pred x with
    | true =>
      simp only [hp, if_true] at ih
      simp [List.filter_cons, hp, ih]
    | false =>
      simp only [hp, if_false] at ih
      simp [List.filter_cons, hp, ih]

/-- Filtering slot 0 of a pair coproduct filters the left factor, never
touching the right one. -/
theorem filter_coproduct_slot0 (pred : EpsilonPack → Bool) (le re : EpsilonExpr) :
    List.filter (fun p => pred p.1.1) (coproduct le re) =
      coproduct (List.filter (fun p => pred p.1) le) re := by
  induction le with
  | nil => rfl
  | cons p rest ih =>
    rw [coproduct_cons, List.filter_append, filter_map_pair_const, ih, List.filter_cons]
    cases hp : pred p.1 with
    | true => simp [hp, coproduct_cons]
    | false => simp [hp]

/-- Slot 0 of `filter_coexpr_predicate` reads the first pack of each
co-term. -/
theorem filter_coexpr_slot0 (e : EpsilonICoExpr) (pred : EpsilonPack → Bool) :
    filter_coexpr_predicate e 0 pred = e.filter (fun p => pred p.1.1) := rfl

/-- The slot-0 filter of the whole `CoLiVec` body pushed inside: each
prototype's left factor is filtered before the pair product is formed, so a
rejected formal symbol discards its entire contribution without looking at
the right factor. -/
theorem filter_CoLiVecBody (param : LiParam) (dots : List Int)
    (pred : EpsilonPack → Bool) :
    List.filter (fun p => pred p.1.1) (CoLiVecBody param dots) =
      smulE param.sign
        (((increasingSequences (dots.length - 2)).foldl
            (fun acc proto => acc ++
              coproduct (List.filter (fun p => pred p.1) (lhsExprOf dots param.points proto))
                (rhsExprOf dots param.points proto)) []) ++
          coproduct (List.filter (fun p => pred p.1) EUnity) (EFormalSymbolSigned param) ++
          coproduct (List.filter (fun p => pred p.1) (EFormalSymbolSigned param)) EUnity) := by
  unfold CoLiVecBody
  rw [show (smulE param.sign
      (((increasingSequences (dots.length - 2)).foldl
          (fun acc proto => acc ++ seqContribution dots param.points proto) []) ++
        coproduct EUnity (EFormalSymbolSigned param) ++
        coproduct (EFormalSymbolSigned param) EUnity)) =
      ((((increasingSequences (dots.length - 2)).foldl
          (fun acc proto => acc ++ seqContribution dots param.points proto) []) ++
        coproduct EUnity (EFormalSymbolSigned param) ++
        coproduct (EFormalSymbolSigned param) EUnity).map
          (fun p => (p.1, param.sign * p.2))) from rfl]
  rw [filter_map_fst_co pred (fun c => param.sign * c)]
  rw [List.filter_append, List.filter_append, filter_foldl_append]
  simp only [seqContribution, filter_coproduct_slot0]
  rfl

set_option maxRecDepth 10000 in
set_option maxHeartbeats 1000000 in
/-- C4: filtering `CoLi(1,5)({1},{2})` at slot 0 with the predicate that is
false on raw products and true on a Li formal symbol exactly when it has one
two-point list and first weight at least 5 returns exactly
`- coproduct(EFormalSymbolPositive(LiParam(1, {5}, {{1,2}})), EVar(1))
 + coproduct(EFormalSymbolPositive(LiParam(1, {5}, {{1,2}})),
             EComplementIndexList({1}))`:
only the matching co-terms survive, signs preserved. -/
theorem c4_filter_coexpr_predicate :
    exprEq (filter_coexpr_predicate (CoLi [1, 5] [[1], [2]]) 0 predC4) expectedC4 :=
  exprEq_of_normE_eq ltEpsCoTerm (by
    rw [show CoLi [1, 5] [[1], [2]] =
        CoLiVecBody ⟨1, [1, 5], [[1], [2]]⟩ (weightsToDots 1 [1, 5]) from rfl]
    rw [filter_coexpr_slot0, filter_CoLiVecBody]
    decide)

/-- Witness for C10 at the crossing simple differences `(x1 - x3)` and
`(x2 - x4)`. -/
theorem c10_are_weakly_separated_symmetric_witness :
    are_weakly_separated (Delta.make ⟨XForm.var, 1⟩ ⟨XForm.var, 3⟩)
        (Delta.make ⟨XForm.var, 2⟩ ⟨XForm.var, 4⟩) =
      are_weakly_separated (Delta.make ⟨XForm.var, 2⟩ ⟨XForm.var, 4⟩)
        (Delta.make ⟨XForm.var, 1⟩ ⟨XForm.var, 3⟩) :=
  c10_are_weakly_separated_symmetric _ _
    (Or.inr ⟨1, 3, by decide, rfl⟩) (Or.inr ⟨2, 4, by decide, rfl⟩)

end PK

namespace PK

/-- C3: the binary coproduct is linear in its first argument: for all
expressions A, B, C and every integer k,
`coproduct(A + k*B, C) = coproduct(A, C) + k*coproduct(B, C)`. -/
theorem c3_coproduct_bilinear (A B C : SVExpr) (k : Int) :
    exprEq (coproduct (addE A (smulE k B)) C)
      (addE (coproduct A C) (smulE k (coproduct B C))) := by
  intro t
  obtain ⟨a, b⟩ := t
  rw [coeff_coproduct, coeff_addE, coeff_addE, coeff_smulE, coeff_smulE,
    coeff_coproduct, coeff_coproduct]
  ring

end PK
